import Mathlib

/-
  Verification development for the dnstoolkit DNS Name value type
  (src/types/name.rs).

  The byte sequence backing a Name (Rust: SmallVec<[u8; 36]>) is modelled
  as a List Char; on the ASCII regime that the codec guarantees, one Char
  corresponds to one byte. Fallible Rust functions returning
  Result<T, NameParseError> are modelled as Except NameParseError T.

  The Unicode codec (the external idna crate's domain_to_ascii, configured
  with hyphen checks, transitional processing, STD3 rules and internal
  length verification disabled) is not part of this repository; per its
  black-box contract, from_text is parametrized over an arbitrary codec
  function of type List Char -> Option (List Char), where none models a
  codec error (surfaced as IDNAError).
-/

set_option maxRecDepth 4096

deriving instance DecidableEq for Except

namespace DnsToolkit

/-- The label separator byte, b'.' (0x2e). -/
def SEP : Char := '.'

/-- Label: a non-owning view over one dot-separated segment of a Name's
byte form (Rust: value: &[u8]). -/
structure Label where
  value : List Char
deriving DecidableEq

/-- Name: the owned, contiguous byte sequence representing an
ASCII-compatible domain name (Rust: value: SmallVec<[u8; 36]>). -/
structure Name where
  value : List Char
deriving DecidableEq

/-- NameParseError: the closed error taxonomy of the parser.
The payloads of IDNAError (idna::Errors) and Utf8Error (FromUtf8Error)
are diagnostics of external libraries and are abstracted away;
NameTooLarge and LabelTooLong carry the offending text
(Rust builds it with String::from_utf8_unchecked over the same bytes),
EmptyLabel carries the zero-based segment position. -/
inductive NameParseError where
  | IDNAError : NameParseError
  | Utf8Error : NameParseError
  | NameTooLarge : List Char → NameParseError
  | LabelTooLong : List Char → NameParseError
  | EmptyLabel : Nat → NameParseError
deriving DecidableEq

/-- Rust slice::split with predicate (v == b'.'): yields the subsequences
separated by separator occurrences, keeping empty subsequences, so the
result always has (number of separators + 1) segments; in particular
splitSep [] = [[]] and splitSep ['.'] = [[], []], exactly as
b"".split and b".".split do in Rust. -/
def splitSep : List Char → List (List Char)
  | [] => [[]]
  | c :: rest =>
    if c = SEP then
      [] :: splitSep rest
    else
      match splitSep rest with
      | s :: ss => (c :: s) :: ss
      | [] => [[c]]

/-- The while-let loop of Name::from_bytes_ascii over the enumerated,
peekable split iterator: position is the enumeration counter; for each
segment, first the 63-byte limit is checked, then the
(empty and another segment follows) condition, i.e. rest nonempty
models splits.peek().is_some(). -/
def checkLabels : Nat → List (List Char) → Except NameParseError Unit
  | _, [] => Except.ok ()
  | position, split :: rest =>
    if split.length > 63 then
      Except.error (NameParseError.LabelTooLong split)
    else if split.isEmpty && !rest.isEmpty then
      Except.error (NameParseError.EmptyLabel position)
    else
      checkLabels (position + 1) rest

/-- Name::from_bytes_raw: wraps the bytes with no checks whatsoever;
the Result type is part of the signature but the error case is never
produced. -/
def from_bytes_raw (name : List Char) : Except NameParseError Name :=
  Except.ok { value := name }

/-- Name::from_bytes_ascii: the 255-byte total-length check (failing with
NameTooLarge carrying the input bytes), then the per-segment loop
(checkLabels) over the dot-splits, then from_bytes_raw on the original
bytes. No ASCII check is performed. -/
def from_bytes_ascii (name : List Char) : Except NameParseError Name :=
  if name.length > 255 then
    Except.error (NameParseError.NameTooLarge name)
  else
    match checkLabels 0 (splitSep name) with
    | Except.error e => Except.error e
    | Except.ok _ => from_bytes_raw name

/-- Name::from_text_ascii: delegates to from_bytes_ascii on the text's
bytes (str::as_bytes is the identity in this model). -/
def from_text_ascii (name : List Char) : Except NameParseError Name :=
  from_bytes_ascii name

/-- Name::from_text: runs the external idna codec (domain_to_ascii) on the
input and feeds its ASCII output to from_text_ascii; a codec failure is
surfaced as IDNAError. The codec is external to the repository, so
from_text is parametrized over it. -/
def from_text (toAscii : List Char → Option (List Char)) (name : List Char) :
    Except NameParseError Name :=
  match toAscii name with
  | none => Except.error NameParseError.IDNAError
  | some idna_domain => from_text_ascii idna_domain

/-- Name::labels: splits the backing bytes on the separator and wraps each
segment in a Label view, in left-to-right order. -/
def Name.labels (n : Name) : List Label :=
  (splitSep n.value).map (fun v => { value := v })

/-- Name::is_absolute: self.value.len() > 0 && self.value[self.len() - 1] == b'.'.
The guarded index access value[len - 1] is modelled with List.getD
(the guard makes the default irrelevant). -/
def Name.is_absolute (n : Name) : Bool :=
  decide (0 < n.value.length) &&
    decide (n.value.getD (n.value.length - 1) (Char.ofNat 0) = SEP)

/-- Display for Name: str::from_utf8_unchecked over the backing bytes,
i.e. the rendered text is exactly the byte content. -/
def Name.display (n : Name) : List Char := n.value

/-- The ROOT constant: unsafe { Name::from_bytes_raw(b".").unwrap() };
the unwrap never panics since from_bytes_raw cannot fail. -/
def ROOT : Name :=
  match from_bytes_raw [SEP] with
  | Except.ok n => n
  | Except.error _ => { value := [] }

/-- The EMPTY constant: unsafe { Name::from_bytes_raw(b"").unwrap() }. -/
def EMPTY : Name :=
  match from_bytes_raw [] with
  | Except.ok n => n
  | Except.error _ => { value := [] }

/-- A codec that acts as the identity: models idna's domain_to_ascii on
inputs it leaves unchanged (lowercase ASCII letters, digits, hyphens and
separators). -/
def identityCodec : List Char → Option (List Char) :=
  fun s => some s

/-- Modelled from the spec: the external IDNA to_ascii codec is a Unicode
to ASCII mapping that normalizes its input; in particular (IDNA2008 /
UTS-46 case folding) it maps uppercase ASCII letters to lowercase. This
concrete codec performs exactly that ASCII case mapping. -/
def lowerCodec : List Char → Option (List Char) :=
  fun s => some (s.map Char.toLower)

/-- Splitting always yields at least one segment. -/
theorem splitSep_ne_nil (l : List Char) : splitSep l ≠ [] := by
  cases l with
  | nil => simp [splitSep]
  | cons c rest =>
    simp only [splitSep]
    by_cases h : c = SEP
    · simp [h]
    · rw [if_neg h]
      cases hs : splitSep rest with
      | nil => simp
      | cons s ss => simp

/-- Splitting yields one segment more than the number of separators. -/
theorem splitSep_length_eq (l : List Char) :
    (splitSep l).length = l.count SEP + 1 := by
  induction l with
  | nil => simp [splitSep]
  | cons c rest ih =>
    simp only [splitSep]
    by_cases h : c = SEP
    · rw [if_pos h, h]
      simp [List.count_cons, ih]
    · rw [if_neg h]
      cases hs : splitSep rest with
      | nil => exact absurd hs (splitSep_ne_nil rest)
      | cons s ss =>
        rw [hs] at ih
        simp only [List.length_cons] at ih
        simp [List.count_cons, h, ih]

/-- Appending a final separator appends one empty segment to the splits. -/
theorem splitSep_concat_sep (l : List Char) :
    splitSep (l ++ [SEP]) = splitSep l ++ [[]] := by
  induction l with
  | nil => simp [splitSep]
  | cons c rest ih =>
    by_cases h : c = SEP
    · simp only [List.cons_append, splitSep, if_pos h]
      exact congrArg (List.cons []) ih
    · simp only [List.cons_append, splitSep, if_neg h]
      cases hs : splitSep rest with
      | nil => exact absurd hs (splitSep_ne_nil rest)
      | cons s ss =>
        rw [show rest.append [SEP] = rest ++ [SEP] from rfl, ih, hs]
        simp

/-- Soundness of the per-segment loop: success forces the 63-byte bound on
every segment and nonemptiness of every non-final segment. -/
theorem checkLabels_sound : ∀ (ss : List (List Char)) (p : Nat),
    checkLabels p ss = Except.ok () →
    (∀ s ∈ ss, s.length ≤ 63) ∧ (∀ s ∈ ss.dropLast, s ≠ []) := by
  intro ss
  induction ss with
  | nil => intro p _; exact ⟨by simp, by simp⟩
  | cons split rest ih =>
    intro p h
    simp only [checkLabels] at h
    by_cases h63 : split.length > 63
    · rw [if_pos h63] at h
      exact absurd h (by simp)
    · rw [if_neg h63] at h
      by_cases hemp : (split.isEmpty && !rest.isEmpty) = true
      · rw [if_pos hemp] at h
        exact absurd h (by simp)
      · rw [if_neg hemp] at h
        obtain ⟨ih1, ih2⟩ := ih (p + 1) h
        refine ⟨?_, ?_⟩
        · intro s hs
          rcases List.mem_cons.mp hs with rfl | hs
          · omega
          · exact ih1 s hs
        · cases rest with
          | nil => simp
          | cons r rs =>
            intro s hs
            rw [List.dropLast_cons₂] at hs
            rcases List.mem_cons.mp hs with rfl | hs
            · intro hc
              rw [hc] at hemp
              exact hemp (by simp)
            · exact ih2 s hs

/-- The loop passes over a prefix of well-formed segments, advancing the
position counter, provided some segment follows the prefix (so no prefix
segment is final). -/
theorem checkLabels_append : ∀ (pre : List (List Char)) (p : Nat)
    (ss : List (List Char)), ss ≠ [] →
    (∀ t ∈ pre, t.length ≤ 63 ∧ t ≠ []) →
    checkLabels p (pre ++ ss) = checkLabels (p + pre.length) ss := by
  intro pre
  induction pre with
  | nil => intro p ss _ _; simp
  | cons t ts ih =>
    intro p ss hss hpre
    obtain ⟨ht63, htne⟩ := hpre t (List.mem_cons_self t ts)
    have hnotemp : ¬((t.isEmpty && !(ts ++ ss).isEmpty) = true) := by
      simp only [Bool.and_eq_true, List.isEmpty_iff]
      intro hc
      exact htne hc.1
    simp only [List.cons_append, checkLabels, List.append_eq]
    rw [if_neg (by omega), if_neg hnotemp]
    rw [ih (p + 1) ss hss (fun u hu => hpre u (List.mem_cons_of_mem t hu))]
    congr 1
    simp only [List.length_cons]
    omega

/-- A successful run of from_bytes_ascii wraps the input bytes unchanged,
and forces the total-length bound and the success of the segment loop. -/
theorem from_bytes_ascii_ok_shape (name : List Char) (n : Name)
    (h : from_bytes_ascii name = Except.ok n) :
    n.value = name ∧ name.length ≤ 255 ∧
      checkLabels 0 (splitSep name) = Except.ok () := by
  unfold from_bytes_ascii at h
  by_cases hlen : name.length > 255
  · rw [if_pos hlen] at h
    exact absurd h (by simp)
  · rw [if_neg hlen] at h
    cases hc : checkLabels 0 (splitSep name) with
    | error e =>
      rw [hc] at h
      exact absurd h (by simp)
    | ok u =>
      rw [hc] at h
      cases u
      unfold from_bytes_raw at h
      cases h
      exact ⟨rfl, by omega, rfl⟩

/-- The guarded index access value[len - 1] agrees with getLast? on
nonempty lists: the Boolean conjunction of is_absolute holds exactly when
the list is nonempty with last element SEP. -/
theorem getD_last_iff : ∀ (v : List Char),
    ((decide (0 < v.length) &&
      decide (v.getD (v.length - 1) (Char.ofNat 0) = SEP)) = true)
      ↔ (v ≠ [] ∧ v.getLast? = some SEP) := by
  intro v
  induction v with
  | nil => simp
  | cons a l ih =>
    cases l with
    | nil => simp [List.getD]
    | cons b t =>
      rw [List.getLast?_cons_cons]
      have hidx : (a :: b :: t).length - 1 = ((b :: t).length - 1) + 1 := by
        simp only [List.length_cons]
        omega
      rw [hidx, List.getD_cons_succ]
      simp only [Bool.and_eq_true, decide_eq_true_eq] at ih ⊢
      constructor
      · intro hK
        exact ⟨by simp, (ih.mp ⟨by simp, hK.2⟩).2⟩
      · intro hK
        exact ⟨by simp, (ih.mpr ⟨by simp, hK.2⟩).2⟩

/-- is_absolute in terms of the last byte. -/
theorem isAbsolute_iff (n : Name) :
    n.is_absolute = true ↔ (n.value ≠ [] ∧ n.value.getLast? = some SEP) := by
  obtain ⟨v⟩ := n
  exact getD_last_iff v

/-- C1: the claim states that the single separator byte "." is accepted by
from_bytes_ascii (and hence by from_text) as the root name, with no
EmptyLabel report. The code does the opposite: b"." splits into two empty
segments (not one, as the spec assumes), the first of which is non-final,
so both from_bytes_ascii and from_text report EmptyLabel 0 on ".". This
theorem evaluates the code at that input. -/
theorem from_bytes_ascii_rejects_root :
    from_bytes_ascii [SEP] = Except.error (NameParseError.EmptyLabel 0) ∧
    from_text identityCodec [SEP]
      = Except.error (NameParseError.EmptyLabel 0) ∧
    splitSep [SEP] = [[], []] := by
  decide

/-- C2 counterexample: from_bytes_ascii (and from_text_ascii, which
delegates to it) can return Err: on ".." it reports EmptyLabel 0 and on a
256-byte input it reports NameTooLarge, refuting "can never return an Err
for any input". -/
theorem from_bytes_ascii_can_fail :
    from_bytes_ascii [SEP, SEP] = Except.error (NameParseError.EmptyLabel 0) ∧
    from_text_ascii (List.replicate 256 'x')
      = Except.error (NameParseError.NameTooLarge (List.replicate 256 'x')) := by
  decide

/-- C2 amended: only from_bytes_raw performs no validation and can never
return an Err — for every input, conforming or not, it wraps the bytes
unchanged into a Name, so misuse yields a non-conforming Name rather than
an error; from_bytes_ascii and from_text_ascii skip only the ASCII check
and still perform the structural checks, so they can return an Err. -/
theorem from_bytes_raw_never_fails :
    (∀ name : List Char, from_bytes_raw name = Except.ok { value := name }) ∧
    (∀ name : List Char, from_text_ascii name = from_bytes_ascii name) ∧
    (∃ name e, from_bytes_ascii name = Except.error e) := by
  exact ⟨fun name => rfl, fun name => rfl,
    ⟨[SEP, SEP], NameParseError.EmptyLabel 0, by decide⟩⟩

/-- C3 counterexample: NameTooLarge does not carry the original input text
passed to from_text; it carries the post-codec (normalized) text. Under
the ASCII case mapping the IDNA codec performs, the input of 256 'X'
bytes is normalized to 256 'x' bytes, and the error carries the lowercased
text, not the original input. -/
theorem name_too_large_carries_normalized :
    lowerCodec (List.replicate 256 'X') = some (List.replicate 256 'x') ∧
    (List.replicate 256 'x').length > 255 ∧
    from_text lowerCodec (List.replicate 256 'X')
      = Except.error (NameParseError.NameTooLarge (List.replicate 256 'x')) ∧
    from_text lowerCodec (List.replicate 256 'X')
      ≠ Except.error (NameParseError.NameTooLarge (List.replicate 256 'X')) := by
  decide

/-- C3 amended: whenever the post-codec ASCII form exceeds 255 bytes,
from_text fails with NameTooLarge carrying the post-codec text (equal to
the original input exactly when the codec leaves it unchanged); the length
check precedes every per-label check — the theorem needs no hypothesis
about the segments. -/
theorem from_text_name_too_large (toAscii : List Char → Option (List Char))
    (s a : List Char) (h : toAscii s = some a) (hlen : a.length > 255) :
    from_text toAscii s = Except.error (NameParseError.NameTooLarge a) := by
  have hred : from_text toAscii s = from_bytes_ascii a := by
    unfold from_text
    rw [h]
    rfl
  rw [hred]
  unfold from_bytes_ascii
  rw [if_pos hlen]

/-- C3 witness: the amended theorem at the identity codec on 256 bytes. -/
theorem from_text_name_too_large_witness :
    from_text identityCodec (List.replicate 256 'x')
      = Except.error (NameParseError.NameTooLarge (List.replicate 256 'x')) :=
  from_text_name_too_large identityCodec (List.replicate 256 'x')
    (List.replicate 256 'x') rfl (by decide)

/-- C4: every Name produced by a successful from_bytes_ascii run has byte
value equal to the input unchanged, total length at most 255 bytes, every
dot-separated label of at most 63 bytes, and no empty label except
possibly the final one. -/
theorem from_bytes_ascii_ok_invariants (name : List Char) (n : Name)
    (h : from_bytes_ascii name = Except.ok n) :
    n.value = name ∧ name.length ≤ 255 ∧
      (∀ s ∈ splitSep name, s.length ≤ 63) ∧
      (∀ s ∈ (splitSep name).dropLast, s ≠ []) := by
  obtain ⟨h1, h2, h3⟩ := from_bytes_ascii_ok_shape name n h
  obtain ⟨h4, h5⟩ := checkLabels_sound (splitSep name) 0 h3
  exact ⟨h1, h2, h4, h5⟩

/-- C4 witness: the invariants at the accepted input "google.com". -/
theorem from_bytes_ascii_ok_invariants_witness :
    (Name.mk "google.com".data).value = "google.com".data ∧
      "google.com".data.length ≤ 255 ∧
      (∀ s ∈ splitSep "google.com".data, s.length ≤ 63) ∧
      (∀ s ∈ (splitSep "google.com".data).dropLast, s ≠ []) :=
  from_bytes_ascii_ok_invariants "google.com".data
    (Name.mk "google.com".data) (by decide)

/-- C5 counterexample: an input with a non-final empty label need not fail
with EmptyLabel: when the total length exceeds 255 bytes the NameTooLarge
check fires first (first input: ".." followed by 254 bytes), and when a
label longer than 63 bytes precedes the first non-final empty label the
LabelTooLong check fires first (second input: a 64-byte label, then an
empty label, then "a"). -/
theorem empty_label_not_always_reported :
    (splitSep ('.' :: '.' :: List.replicate 254 'x'))[0]? = some [] ∧
    (splitSep ('.' :: '.' :: List.replicate 254 'x')).length = 3 ∧
    from_text identityCodec ('.' :: '.' :: List.replicate 254 'x')
      = Except.error
          (NameParseError.NameTooLarge ('.' :: '.' :: List.replicate 254 'x')) ∧
    (splitSep (List.replicate 64 'x' ++ "..a".data))[1]? = some [] ∧
    (splitSep (List.replicate 64 'x' ++ "..a".data)).length = 3 ∧
    from_text identityCodec (List.replicate 64 'x' ++ "..a".data)
      = Except.error (NameParseError.LabelTooLong (List.replicate 64 'x')) := by
  decide

/-- C5 amended: for every input whose post-codec form has total length at
most 255 bytes and contains a non-final empty segment preceded only by
segments that are nonempty and at most 63 bytes long (so the empty segment
is the first offense of any kind, its zero-based index being the length of
the preceding segment list), from_text fails fast with EmptyLabel carrying
that index. -/
theorem from_text_empty_label_first (toAscii : List Char → Option (List Char))
    (s a : List Char) (pre post : List (List Char))
    (h : toAscii s = some a) (hlen : a.length ≤ 255)
    (hsplit : splitSep a = pre ++ [] :: post) (hpost : post ≠ [])
    (hpre : ∀ t ∈ pre, t.length ≤ 63 ∧ t ≠ []) :
    from_text toAscii s = Except.error (NameParseError.EmptyLabel pre.length) := by
  have hred : from_text toAscii s = from_bytes_ascii a := by
    unfold from_text
    rw [h]
    rfl
  rw [hred]
  unfold from_bytes_ascii
  rw [if_neg (by omega), hsplit]
  rw [checkLabels_append pre 0 ([] :: post) (by simp) hpre]
  simp only [checkLabels]
  rw [if_neg (by simp), if_pos (by simp [List.isEmpty_iff, hpost])]
  simp

/-- C5 witness: "www..google.com" fails with EmptyLabel 1. -/
theorem from_text_empty_label_first_witness :
    from_text identityCodec "www..google.com".data
      = Except.error (NameParseError.EmptyLabel 1) :=
  from_text_empty_label_first identityCodec "www..google.com".data
    "www..google.com".data ["www".data] ["google".data, "com".data]
    rfl (by decide) (by decide) (by decide) (by decide)

/-- C6 counterexample: an input with a label of 64 bytes or more need not
fail with LabelTooLong: when the total length exceeds 255 bytes the
NameTooLarge check fires first (first input: a single 256-byte label), and
when a non-final empty label precedes the long label the EmptyLabel check
fires first (second input: "..", then a 64-byte label). -/
theorem label_too_long_not_always_reported :
    splitSep (List.replicate 256 'x') = [List.replicate 256 'x'] ∧
    63 < (List.replicate 256 'x').length ∧
    from_text identityCodec (List.replicate 256 'x')
      = Except.error (NameParseError.NameTooLarge (List.replicate 256 'x')) ∧
    (splitSep ('.' :: '.' :: List.replicate 64 'x'))[2]?
      = some (List.replicate 64 'x') ∧
    63 < (List.replicate 64 'x').length ∧
    from_text identityCodec ('.' :: '.' :: List.replicate 64 'x')
      = Except.error (NameParseError.EmptyLabel 0) := by
  decide

/-- C6 amended: for every input whose post-codec form has total length at
most 255 bytes and contains a segment longer than 63 bytes preceded only
by segments that are nonempty and at most 63 bytes long (so the long
segment is the first offense of any kind), from_text fails fast with
LabelTooLong carrying exactly that segment's text. -/
theorem from_text_label_too_long_first (toAscii : List Char → Option (List Char))
    (s a seg : List Char) (pre post : List (List Char))
    (h : toAscii s = some a) (hlen : a.length ≤ 255)
    (hsplit : splitSep a = pre ++ seg :: post) (hseg : seg.length > 63)
    (hpre : ∀ t ∈ pre, t.length ≤ 63 ∧ t ≠ []) :
    from_text toAscii s = Except.error (NameParseError.LabelTooLong seg) := by
  have hred : from_text toAscii s = from_bytes_ascii a := by
    unfold from_text
    rw [h]
    rfl
  rw [hred]
  unfold from_bytes_ascii
  rw [if_neg (by omega), hsplit]
  rw [checkLabels_append pre 0 (seg :: post) (by simp) hpre]
  simp only [checkLabels]
  rw [if_pos hseg]

/-- C6 witness: a 64-byte label followed by ".com" fails with LabelTooLong
carrying that label. -/
theorem from_text_label_too_long_first_witness :
    from_text identityCodec (List.replicate 64 'x' ++ ".com".data)
      = Except.error (NameParseError.LabelTooLong (List.replicate 64 'x')) :=
  from_text_label_too_long_first identityCodec
    (List.replicate 64 'x' ++ ".com".data)
    (List.replicate 64 'x' ++ ".com".data)
    (List.replicate 64 'x') [] ["com".data]
    rfl (by decide) (by decide) (by decide) (by decide)

/-- C7: is_absolute returns true iff the byte value is non-empty and its
last byte is the separator byte. -/
theorem is_absolute_iff_last_sep (n : Name) :
    n.is_absolute = true ↔ (n.value ≠ [] ∧ n.value.getLast? = some SEP) :=
  isAbsolute_iff n

/-- C8: labels() yields the dot-separated segments of the byte value as
Label views in left-to-right order, with a trailing empty label for
absolute names; concretely, the name parsed from "google.com." has labels
["google", "com", ""] and the one parsed from "google.com" has labels
["google", "com"]. -/
theorem labels_decomposition (toAscii : List Char → Option (List Char))
    (h1 : toAscii "google.com.".data = some "google.com.".data)
    (h2 : toAscii "google.com".data = some "google.com".data) :
    (∃ n : Name, from_text toAscii "google.com.".data = Except.ok n ∧
      n.labels = [Label.mk "google".data, Label.mk "com".data, Label.mk []] ∧
      n.is_absolute = true) ∧
    (∃ n : Name, from_text toAscii "google.com".data = Except.ok n ∧
      n.labels = [Label.mk "google".data, Label.mk "com".data] ∧
      n.is_absolute = false) ∧
    (∀ n : Name, n.is_absolute = true →
      n.labels.getLast? = some (Label.mk [])) := by
  refine ⟨⟨Name.mk "google.com.".data, ?_, by decide, by decide⟩,
    ⟨Name.mk "google.com".data, ?_, by decide, by decide⟩, ?_⟩
  · unfold from_text
    rw [h1]
    decide
  · unfold from_text
    rw [h2]
    decide
  · intro n habs
    obtain ⟨hne, hlast⟩ := (isAbsolute_iff n).mp habs
    obtain ⟨ys, hys⟩ := List.getLast?_eq_some_iff.mp hlast
    unfold Name.labels
    rw [hys, splitSep_concat_sep, List.map_append]
    simp [List.getLast?_concat]

/-- C8 witness: the decomposition at the identity codec. -/
theorem labels_decomposition_witness :
    (∃ n : Name, from_text identityCodec "google.com.".data = Except.ok n ∧
      n.labels = [Label.mk "google".data, Label.mk "com".data, Label.mk []] ∧
      n.is_absolute = true) ∧
    (∃ n : Name, from_text identityCodec "google.com".data = Except.ok n ∧
      n.labels = [Label.mk "google".data, Label.mk "com".data] ∧
      n.is_absolute = false) ∧
    (∀ n : Name, n.is_absolute = true →
      n.labels.getLast? = some (Label.mk [])) :=
  labels_decomposition identityCodec rfl rfl

/-- C9 round trip: when the codec leaves the ASCII input unchanged and
from_text succeeds on it, displaying the resulting Name renders exactly
the input text. -/
theorem from_text_display_round_trip (toAscii : List Char → Option (List Char))
    (s : List Char) (n : Name) (hid : toAscii s = some s)
    (h : from_text toAscii s = Except.ok n) :
    n.display = s := by
  unfold from_text at h
  rw [hid] at h
  exact (from_bytes_ascii_ok_shape s n h).1

/-- C9 witness: the round trip at "google.com". -/
theorem from_text_display_round_trip_witness :
    (Name.mk "google.com".data).display = "google.com".data :=
  from_text_display_round_trip identityCodec "google.com".data
    (Name.mk "google.com".data) rfl (by decide)

/-- C10: labels() always yields exactly one label more than the number of
separator bytes in the value; in particular EMPTY yields the single empty
label (not an empty sequence) and ROOT yields exactly two empty labels. -/
theorem labels_count :
    (∀ n : Name, n.labels.length = n.value.count SEP + 1) ∧
    EMPTY.labels = [Label.mk []] ∧
    ROOT.labels = [Label.mk [], Label.mk []] := by
  refine ⟨fun n => ?_, by decide, by decide⟩
  unfold Name.labels
  rw [List.length_map]
  exact splitSep_length_eq n.value

end DnsToolkit
